import Mathlib

/-!
# Chapter 1 exercises: a persistent binary search tree over C strings

Shallow embedding of `src/exercises/util.{h,c}` and
`src/c_exercises/chapter_1/exercises.c`.

* A C `string` (`char *` to a NUL-terminated array) is the list of the
  characters before the terminating NUL; each is a nonzero `unsigned char`.
* `strcmp`, `strncmp`, `strnlen`, `strncpy` follow ISO C / POSIX.
* `T_tree` is modelled twice: as an inductive value (`T_tree`), and as
  addresses into an explicit heap of nodes (`Mem`) where allocation and
  sharing are visible.
-/

namespace Util

/-- A character of a C string: an `unsigned char` other than NUL. -/
abbrev CChar := { c : Nat // 0 < c ∧ c < 256 }

/-- The C type `typedef char *string;`: the characters before the terminating NUL. -/
abbrev string := List CChar

/-- The constant of `util.h`: `MAX_STRING_LEN` is `(128)`. -/
def MAX_STRING_LEN : Nat := 128

/-- ISO C `strcmp`: the difference of the first pair of differing characters
(as `unsigned char`, the terminating NUL being 0), or 0 when there is none. -/
def strcmp : string → string → Int
  | [], [] => 0
  | [], b :: _ => 0 - (b.val : Int)
  | a :: _, [] => (a.val : Int) - 0
  | a :: as, b :: bs => if a = b then strcmp as bs else (a.val : Int) - (b.val : Int)

/-- ISO C `strncmp`: as `strcmp`, but at most `n` characters are compared. -/
def strncmp : string → string → Nat → Int
  | _, _, 0 => 0
  | [], [], _ + 1 => 0
  | [], b :: _, _ + 1 => 0 - (b.val : Int)
  | a :: _, [], _ + 1 => (a.val : Int) - 0
  | a :: as, b :: bs, n + 1 =>
    if a = b then strncmp as bs n else (a.val : Int) - (b.val : Int)

/-- POSIX `strnlen`: the length of the string, but at most `maxlen`. -/
def strnlen : string → Nat → Nat
  | _, 0 => 0
  | [], _ + 1 => 0
  | _ :: s, n + 1 => strnlen s n + 1

/-- ISO C `strncpy(dest, src, n)`: the `n` bytes written to `dest`: the
characters of `src` up to `n` of them, then NUL bytes until `n` are written. -/
def strncpy : string → Nat → List Nat
  | _, 0 => []
  | [], n + 1 => 0 :: strncpy [] n
  | c :: s, n + 1 => c.val :: strncpy s n

/-- The bytes `String(str)` stores in the block it allocates:
`str_len = strnlen(str, MAX_STRING_LEN + 1)`, a block of `str_len` bytes,
`strncpy(ret, str, str_len)`. (The C function has no `return` statement.) -/
def String (str : string) : List Nat :=
  let str_len := strnlen str (MAX_STRING_LEN + 1)
  strncpy str str_len

end Util

namespace Chapter1
open Util

/-- The `struct tree { T_tree left; string key; T_tree right; }` behind a
`T_tree` pointer; `NULL` is the empty tree and `Tree l k r` the node that
the C constructor `Tree(l, k, r)` allocates. -/
inductive T_tree where
  | NULL : T_tree
  | Tree (l : T_tree) (k : string) (r : T_tree) : T_tree
  deriving DecidableEq, Repr

/-- The C function `T_tree insert(string key, T_tree t)`. -/
def insert (key : string) : T_tree → T_tree
  | .NULL => .Tree .NULL key .NULL
  | .Tree l k r =>
    if strcmp key k < 0 then .Tree (insert key l) k r
    else if strcmp key k > 0 then .Tree l k (insert key r)
    else .Tree l key r

/-- The C function `bool member(string key, T_tree t)`. -/
def member (key : string) : T_tree → Bool
  | .NULL => false
  | .Tree l k r =>
    if strncmp key k MAX_STRING_LEN = 0 then true
    else member key l || member key r

/-! ## Observations on trees -/

/-- In-order traversal: the keys of the left subtree, the node, the right subtree. -/
def inorder : T_tree → List string
  | .NULL => []
  | .Tree l k r => inorder l ++ k :: inorder r

/-- Number of nodes. -/
def size : T_tree → Nat
  | .NULL => 0
  | .Tree l _ r => size l + 1 + size r

/-- Number of nodes on the longest path from the root to an empty subtree. -/
def height : T_tree → Nat
  | .NULL => 0
  | .Tree l _ r => max (height l) (height r) + 1

/-- The search-tree ordering: at every node every key of the left subtree is
strictly less (`strcmp < 0`) and every key of the right subtree strictly
greater (`strcmp > 0`) than the key of the node. -/
def ordered : T_tree → Bool
  | .NULL => true
  | .Tree l k r =>
    (inorder l).all (fun x => decide (strcmp x k < 0)) &&
    (inorder r).all (fun x => decide (strcmp x k > 0)) &&
    ordered l && ordered r

/-- Insert the keys one after another, starting from the tree `t`. -/
def insertAll (ks : List string) (t : T_tree) : T_tree :=
  ks.foldl (fun acc k => insert k acc) t

/-- Whether two trees have the same shape (the same nodes, whatever the keys). -/
def sameShape : T_tree → T_tree → Bool
  | .NULL, .NULL => true
  | .Tree l1 _ r1, .Tree l2 _ r2 => sameShape l1 l2 && sameShape r1 r2
  | _, _ => false

/-- The character `c` repeated `n` times, followed by the characters `tail`. -/
def padded (n : Nat) (c : CChar) (tail : string) : string :=
  List.replicate n c ++ tail

/-- The 129 characters "a…ab": 128 times 'a', then 'b'. -/
def longAB : string := padded 128 ⟨97, by decide⟩ [⟨98, by decide⟩]
/-- The 129 characters "a…ac": 128 times 'a', then 'c'. -/
def longAC : string := padded 128 ⟨97, by decide⟩ [⟨99, by decide⟩]
/-- The 129 characters "a…a": 129 times 'a'. -/
def long129 : string := padded 129 ⟨97, by decide⟩ []

/-! ## The demo in `main` -/

/-- The characters of a string literal. -/
def lit (bytes : List Nat) : string :=
  bytes.filterMap (fun n => if h : 0 < n ∧ n < 256 then some ⟨n, h⟩ else none)

/-- The literal "hello". -/
def hello : string := lit [104, 101, 108, 108, 111]
/-- The literal "world". -/
def world : string := lit [119, 111, 114, 108, 100]
/-- The literal "hi". -/
def hi : string := lit [104, 105]

/-- The tree of `main`: `T_tree tree = Tree(Tree(NULL, "world", NULL), "hello", NULL);` -/
def mainTree : T_tree := .Tree (.Tree .NULL world .NULL) hello .NULL

/-- What `printf("%d", b)` prints for a `bool`. -/
def fmt_d (b : Bool) : List Char := if b then ['1'] else ['0']

/-- The characters `main` writes to standard output. -/
def mainStdout : List Char :=
  "member(hi) = ".toList ++ fmt_d (member hi mainTree) ++ ['\n'] ++
  "member(world) = ".toList ++ fmt_d (member world mainTree) ++ ['\n']

/-! ## The same code over an explicit memory

Here a `T_tree` is what it is in C: `NULL` or the address of a `struct tree`.
`checked_malloc` hands out a block that no earlier pointer refers to (the next
free address; nothing is ever freed) and is taken to succeed: on exhaustion the
`assert` aborts the process. The recursion of `insert` and `member` follows
pointers, so the functions carry a bound on the recursion depth and give
`none` when it is exceeded or a pointer refers to no allocated node. -/

/-- A `T_tree` value: `NULL` (`none`) or the address of a node. -/
abbrev Ptr := Option Nat

/-- The C type `struct tree`: `T_tree left; string key; T_tree right;`. -/
structure Node where
  left : Ptr
  key : string
  right : Ptr
  deriving DecidableEq, Repr

/-- The nodes allocated so far; the node at address `a` is the entry `a`. -/
abbrev Mem := List Node

/-- The C function `T_tree Tree(T_tree l, string k, T_tree r)`: allocate a node, store the
three fields in it, return its address. -/
def TreeM (l : Ptr) (k : string) (r : Ptr) (m : Mem) : Ptr × Mem :=
  (some m.length, m ++ [{ left := l, key := k, right := r }])

/-- The C function `T_tree insert(string key, T_tree t)` over memory `m`,
recursion depth at most `depth`. C leaves open in which order the arguments of
`Tree(...)` are evaluated; the fields of `t` are read before the recursive
call, and since that call only appends to the memory, reading them after it
gives the same values. -/
def insertM (key : string) : Nat → Ptr → Mem → Option (Ptr × Mem)
  | 0, _, _ => none
  | _ + 1, none, m => some (TreeM none key none m)
  | depth + 1, some a, m =>
    match m[a]? with
    | none => none
    | some t =>
      if strcmp key t.key < 0 then
        match insertM key depth t.left m with
        | none => none
        | some (p, m1) => some (TreeM p t.key t.right m1)
      else if strcmp key t.key > 0 then
        match insertM key depth t.right m with
        | none => none
        | some (p, m1) => some (TreeM t.left t.key p m1)
      else some (TreeM t.left key t.right m)

/-- The C function `bool member(string key, T_tree t)` over memory `m`, recursion depth at
most `depth`; `||` evaluates its right operand only when the left is false. -/
def memberM (key : string) : Nat → Ptr → Mem → Option Bool
  | 0, _, _ => none
  | _ + 1, none, _ => some false
  | depth + 1, some a, m =>
    match m[a]? with
    | none => none
    | some t =>
      if strncmp key t.key MAX_STRING_LEN = 0 then some true
      else
        match memberM key depth t.left m with
        | none => none
        | some true => some true
        | some false => memberM key depth t.right m

/-- The pointer `p` in memory `m` is the root of the tree `t`. -/
def represents (m : Mem) : Ptr → T_tree → Bool
  | none, .NULL => true
  | some a, .Tree l k r =>
    match m[a]? with
    | none => false
    | some t => decide (t.key = k) && represents m t.left l && represents m t.right r
  | _, _ => false

/-- The memory `main` has built when it first calls `member`: "world" at
address 0, "hello" at address 1. -/
def mainMem : Mem :=
  (TreeM (TreeM none world none []).1 hello none (TreeM none world none []).2).2

/-- The pointer `main` keeps in its variable `tree`. -/
def mainPtr : Ptr :=
  (TreeM (TreeM none world none []).1 hello none (TreeM none world none []).2).1

/-! ## Reachable trees, spines, and the ordered lookup -/

/-- The trees that the public operations can produce: the empty tree, the
constructor `Tree` applied to such trees and any key, and `insert` applied to
such a tree and any key. -/
inductive Built : T_tree → Prop where
  | byNull : Built .NULL
  | byTree (l : T_tree) (k : string) (r : T_tree) : Built l → Built r → Built (.Tree l k r)
  | byInsert (k : string) (t : T_tree) : Built t → Built (insert k t)

/-- The trees produced by `insert`, and by `Tree` only when it is given a key
that is greater than every key of the left argument and less than every key of
the right argument. -/
inductive BuiltInOrder : T_tree → Prop where
  | byNull : BuiltInOrder .NULL
  | byTree (l : T_tree) (k : string) (r : T_tree) :
      BuiltInOrder l → BuiltInOrder r →
      (∀ x ∈ inorder l, strcmp x k < 0) → (∀ x ∈ inorder r, strcmp x k > 0) →
      BuiltInOrder (.Tree l k r)
  | byInsert (k : string) (t : T_tree) : BuiltInOrder t → BuiltInOrder (insert k t)

/-- Every node has an empty left subtree. -/
def rightSpine : T_tree → Bool
  | .NULL => true
  | .Tree l _ r => decide (l = .NULL) && rightSpine r

/-- Every node has an empty right subtree. -/
def leftSpine : T_tree → Bool
  | .NULL => true
  | .Tree l _ r => decide (r = .NULL) && leftSpine l

/-- A strictly increasing sequence: each key is less than the next (`strcmp < 0`). -/
def increasing : List string → Bool
  | a :: b :: rest => decide (strcmp a b < 0) && increasing (b :: rest)
  | _ => true

/-- A strictly decreasing sequence: each key is greater than the next (`strcmp > 0`). -/
def decreasing : List string → Bool
  | a :: b :: rest => decide (strcmp a b > 0) && decreasing (b :: rest)
  | _ => true

/-- The pruning search, written from its description (it is not in the C
source): equal to the key of the node, found; less, search only the left
subtree; greater, search only the right subtree. -/
def orderedLookup (key : string) : T_tree → Bool
  | .NULL => false
  | .Tree l k r =>
    if strcmp key k < 0 then orderedLookup key l
    else if strcmp key k > 0 then orderedLookup key r
    else true

/-- The keys of the nodes that `insert(key, t)` compares `key` with, from the
root downwards: its search path. -/
def searchPath (key : string) : T_tree → List string
  | .NULL => []
  | .Tree l k r =>
    if strcmp key k < 0 then k :: searchPath key l
    else if strcmp key k > 0 then k :: searchPath key r
    else [k]

end Chapter1

/-! ## The string comparisons are a strict total order / a window equality -/

namespace Util

theorem strcmp_self (a : string) : strcmp a a = 0 := by
  induction a with
  | nil => rfl
  | cons c s ih => simp [strcmp, ih]

theorem strcmp_eq_zero_iff : ∀ a b : string, strcmp a b = 0 ↔ a = b
  | [], [] => by simp [strcmp]
  | [], b :: _ => by
    have := b.property.1
    simp [strcmp]; omega
  | a :: _, [] => by
    have := a.property.1
    simp [strcmp]; omega
  | a :: as, b :: bs => by
    by_cases h : a = b
    · simp [strcmp, h, strcmp_eq_zero_iff as bs]
    · have hv : a.val ≠ b.val := fun e => h (Subtype.ext e)
      simp [strcmp, h]; omega

theorem strcmp_pos_iff : ∀ a b : string, 0 < strcmp a b ↔ strcmp b a < 0
  | [], [] => by simp [strcmp]
  | [], b :: _ => by
    have := b.property.1
    simp [strcmp]
  | a :: _, [] => by
    simp [strcmp]
  | a :: as, b :: bs => by
    by_cases h : a = b
    · simp [strcmp, h, strcmp_pos_iff as bs]
    · have h2 : ¬ b = a := fun e => h e.symm
      simp [strcmp, h, h2]

theorem strcmp_trans : ∀ a b c : string,
    strcmp a b < 0 → strcmp b c < 0 → strcmp a c < 0
  | [], [], _ => by
    intro h1 _
    simp [strcmp] at h1
  | [], _ :: _, [] => by
    intro _ h2
    have h3 := (strcmp_pos_iff _ _).2 h2
    simp [strcmp] at h3
    omega
  | [], _, c :: _ => by
    intro _ _
    have := c.property.1
    simp [strcmp]
    omega
  | a :: _, [], _ => by
    intro h1
    have h3 := (strcmp_pos_iff _ _).2 h1
    simp [strcmp] at h3
    omega
  | _ :: _, b :: _, [] => by
    intro _ h2
    have h3 := (strcmp_pos_iff _ _).2 h2
    simp [strcmp] at h3
    omega
  | a :: as, b :: bs, c :: cs => by
    intro h1 h2
    by_cases hab : a = b
    · subst hab
      by_cases hac : a = c
      · subst hac
        simp only [strcmp, if_true] at h1 h2 ⊢
        exact strcmp_trans as bs cs h1 h2
      · simp only [strcmp, if_true, hac, if_false] at h1 h2 ⊢
        exact h2
    · by_cases hbc : b = c
      · subst hbc
        simp only [strcmp, hab, if_false] at h1 ⊢
        exact h1
      · simp only [strcmp, hab, hbc, if_false] at h1 h2
        by_cases hac : a = c
        · subst hac; omega
        · simp only [strcmp, hac, if_false]; omega

theorem strcmp_not_lt_self (a : string) : ¬ strcmp a a < 0 := by
  simp [strcmp_self]

theorem strncmp_eq_zero_iff : ∀ (a b : string) (n : Nat),
    strncmp a b n = 0 ↔ a.take n = b.take n
  | _, _, 0 => by simp [strncmp]
  | [], [], _ + 1 => by simp [strncmp]
  | [], b :: _, _ + 1 => by
    have := b.property.1
    simp [strncmp]; omega
  | a :: _, [], _ + 1 => by
    have := a.property.1
    simp [strncmp]; omega
  | a :: as, b :: bs, n + 1 => by
    by_cases h : a = b
    · simp [strncmp, h, strncmp_eq_zero_iff as bs n]
    · have hv : a.val ≠ b.val := fun e => h (Subtype.ext e)
      simp [strncmp, h]; omega

theorem strncmp_self (a : string) (n : Nat) : strncmp a a n = 0 :=
  (strncmp_eq_zero_iff a a n).2 rfl

end Util

namespace Chapter1
open Util

/-! ## Helper lemmas on `insert`, `member` and the ordering -/

theorem insert_lt (key k : string) (l r : T_tree) (h : strcmp key k < 0) :
    insert key (.Tree l k r) = .Tree (insert key l) k r := by
  simp [insert, h]

theorem insert_gt (key k : string) (l r : T_tree) (h : strcmp key k > 0) :
    insert key (.Tree l k r) = .Tree l k (insert key r) := by
  have h1 : ¬ strcmp key k < 0 := by omega
  simp [insert, h, h1]

theorem insert_eq (key k : string) (l r : T_tree) (h : strcmp key k = 0) :
    insert key (.Tree l k r) = .Tree l key r := by
  simp [insert, h]

theorem member_iff_exists (K : string) (t : T_tree) :
    member K t = true ↔ ∃ k ∈ inorder t, strncmp K k MAX_STRING_LEN = 0 := by
  induction t with
  | NULL => simp [member, inorder]
  | Tree l k r ihl ihr =>
    by_cases h : strncmp K k MAX_STRING_LEN = 0
    · simp only [member, h, if_true, true_iff]
      exact ⟨k, by simp [inorder], h⟩
    · simp only [member, h, if_false, Bool.or_eq_true, ihl, ihr, inorder]
      constructor
      · rintro (⟨x, hx, hx0⟩ | ⟨x, hx, hx0⟩)
        · exact ⟨x, by simp [hx], hx0⟩
        · exact ⟨x, by simp [hx], hx0⟩
      · rintro ⟨x, hx, hx0⟩
        rcases List.mem_append.1 hx with e | e
        · exact Or.inl ⟨x, e, hx0⟩
        · rcases List.mem_cons.1 e with e | e
          · exact absurd (e ▸ hx0) h
          · exact Or.inr ⟨x, e, hx0⟩

theorem mem_inorder_insert (K x : string) (t : T_tree) :
    x ∈ inorder (insert K t) ↔ x = K ∨ x ∈ inorder t := by
  induction t with
  | NULL => simp [insert, inorder]
  | Tree l k r ihl ihr =>
    rcases lt_trichotomy (strcmp K k) 0 with h | h | h
    · rw [insert_lt K k l r h]
      simp only [inorder, List.mem_append, List.mem_cons, ihl]
      tauto
    · have hk : K = k := (strcmp_eq_zero_iff K k).1 h
      rw [insert_eq K k l r h, hk]
      simp only [inorder, List.mem_append, List.mem_cons]
      tauto
    · rw [insert_gt K k l r h]
      simp only [inorder, List.mem_append, List.mem_cons, ihr]
      tauto

theorem ordered_node (l r : T_tree) (k : string) :
    ordered (.Tree l k r) = true ↔
      (∀ x ∈ inorder l, strcmp x k < 0) ∧ (∀ x ∈ inorder r, strcmp x k > 0) ∧
        ordered l = true ∧ ordered r = true := by
  simp [ordered, List.all_eq_true, and_assoc]

theorem ordered_insert (K : string) (t : T_tree) (h : ordered t = true) :
    ordered (insert K t) = true := by
  induction t with
  | NULL => simp [insert, ordered, inorder]
  | Tree l k r ihl ihr =>
    obtain ⟨hl, hr, ol, or⟩ := (ordered_node l r k).1 h
    rcases lt_trichotomy (strcmp K k) 0 with h1 | h1 | h1
    · rw [insert_lt K k l r h1]
      refine (ordered_node _ _ _).2 ⟨?_, hr, ihl ol, or⟩
      intro x hx
      rcases (mem_inorder_insert K x l).1 hx with e | e
      · exact e ▸ h1
      · exact hl x e
    · have hk : K = k := (strcmp_eq_zero_iff K k).1 h1
      rw [insert_eq K k l r h1, hk]
      exact h
    · rw [insert_gt K k l r h1]
      refine (ordered_node _ _ _).2 ⟨hl, ?_, ol, ihr or⟩
      intro x hx
      rcases (mem_inorder_insert K x r).1 hx with e | e
      · exact e ▸ h1
      · exact hr x e

theorem ordered_insertAll (ks : List string) (t : T_tree) (h : ordered t = true) :
    ordered (insertAll ks t) = true := by
  induction ks generalizing t with
  | nil => simpa [insertAll] using h
  | cons k ks ih => exact ih (insert k t) (ordered_insert k t h)

theorem inorder_strictly_increasing (t : T_tree) (h : ordered t = true) :
    (inorder t).Pairwise (fun a b => strcmp a b < 0) := by
  induction t with
  | NULL => simp [inorder]
  | Tree l k r ihl ihr =>
    obtain ⟨hl, hr, ol, or⟩ := (ordered_node l r k).1 h
    have hr2 : ∀ x ∈ inorder r, strcmp k x < 0 := fun x hx =>
      (strcmp_pos_iff x k).1 (hr x hx)
    simp only [inorder]
    refine List.pairwise_append.2 ⟨ihl ol, List.pairwise_cons.2 ⟨hr2, ihr or⟩, ?_⟩
    intro a ha b hb
    rcases List.mem_cons.1 hb with e | e
    · exact e ▸ hl a ha
    · exact strcmp_trans a k b (hl a ha) (hr2 b e)

theorem inorder_nodup (t : T_tree) (h : ordered t = true) : (inorder t).Nodup :=
  (inorder_strictly_increasing t h).imp (fun {a b} hab e => by
    subst e
    exact strcmp_not_lt_self a hab)

theorem insert_insert (K : string) (t : T_tree) :
    insert K (insert K t) = insert K t := by
  induction t with
  | NULL => simp [insert, strcmp_self]
  | Tree l k r ihl ihr =>
    rcases lt_trichotomy (strcmp K k) 0 with h | h | h
    · rw [insert_lt K k l r h, insert_lt K k _ r h, ihl]
    · rw [insert_eq K k l r h, insert_eq K K l r (strcmp_self K)]
    · rw [insert_gt K k l r h, insert_gt K k l _ h, ihr]

theorem insert_present (K : string) (t : T_tree) (h : ordered t = true)
    (hK : K ∈ inorder t) : insert K t = t := by
  induction t with
  | NULL => simp [inorder] at hK
  | Tree l k r ihl ihr =>
    obtain ⟨hl, hr, ol, or⟩ := (ordered_node l r k).1 h
    simp only [inorder, List.mem_append, List.mem_cons] at hK
    rcases lt_trichotomy (strcmp K k) 0 with h1 | h1 | h1
    · rw [insert_lt K k l r h1]
      rcases hK with e | e | e
      · rw [ihl ol e]
      · exact absurd (e ▸ h1) (strcmp_not_lt_self k)
      · have := hr K e
        omega
    · have hk : K = k := (strcmp_eq_zero_iff K k).1 h1
      rw [insert_eq K k l r h1, hk]
    · rw [insert_gt K k l r h1]
      rcases hK with e | e | e
      · have := hl K e
        omega
      · rw [e, strcmp_self] at h1
        omega
      · rw [ihr or e]

theorem sameShape_self (t : T_tree) : sameShape t t = true := by
  induction t with
  | NULL => rfl
  | Tree l k r ihl ihr => simp [sameShape, ihl, ihr]

theorem take_eq_of_length_le {a b : string} {n : Nat} (ha : a.length ≤ n)
    (hb : b.length ≤ n) : a.take n = b.take n ↔ a = b := by
  rw [List.take_of_length_le ha, List.take_of_length_le hb]

end Chapter1

namespace Util

theorem strnlen_eq (s : string) (n : Nat) : strnlen s n = min s.length n := by
  induction s generalizing n with
  | nil => cases n <;> simp [strnlen]
  | cons c s ih =>
    cases n with
    | zero => simp [strnlen]
    | succ n =>
      simp only [strnlen, ih, List.length_cons]
      omega

theorem strncpy_of_le (s : string) (n : Nat) (h : n ≤ s.length) :
    strncpy s n = (s.take n).map (fun c => c.val) := by
  induction s generalizing n with
  | nil =>
    have : n = 0 := by simpa using h
    subst this
    simp [strncpy]
  | cons c s ih =>
    cases n with
    | zero => simp [strncpy]
    | succ n =>
      have h2 : n ≤ s.length := by simpa using h
      simp [strncpy, ih n h2]

theorem String_eq (str : string) :
    String str = (str.take (MAX_STRING_LEN + 1)).map (fun c => c.val) := by
  unfold String
  simp only [strnlen_eq]
  rw [strncpy_of_le str _ (Nat.min_le_left _ _)]
  rcases Nat.le_total str.length (MAX_STRING_LEN + 1) with h | h
  · rw [Nat.min_eq_left h, List.take_of_length_le (le_refl _), List.take_of_length_le h]
  · rw [Nat.min_eq_right h]

end Util

namespace Chapter1
open Util

/-! ## The memory model refines the tree model -/

theorem represents_none (m : Mem) (t : T_tree) :
    represents m none t = true ↔ t = .NULL := by
  cases t <;> simp [represents]

theorem represents_some (m : Mem) (a : Nat) (t : T_tree) :
    represents m (some a) t = true ↔
      ∃ nd l r, m[a]? = some nd ∧ t = .Tree l nd.key r ∧
        represents m nd.left l = true ∧ represents m nd.right r = true := by
  cases t with
  | NULL => simp [represents]
  | Tree l k r =>
    cases h : m[a]? with
    | none => simp [represents, h]
    | some nd =>
      simp only [represents, h, Bool.and_eq_true, decide_eq_true_eq, Option.some.injEq,
        T_tree.Tree.injEq]
      constructor
      · rintro ⟨⟨hk, hl⟩, hr⟩
        exact ⟨nd, l, r, rfl, ⟨rfl, hk.symm, rfl⟩, hl, hr⟩
      · rintro ⟨nd', l', r', e, ⟨el, ek, er⟩, hl, hr⟩
        subst e el er
        exact ⟨⟨ek.symm, hl⟩, hr⟩

theorem getElem?_append_old (m new : Mem) (i : Nat) (h : i < m.length) :
    (m ++ new)[i]? = m[i]? :=
  List.getElem?_append_left h

theorem getElem?_append_of_some (m new : Mem) (a : Nat) (nd : Node)
    (h : m[a]? = some nd) : (m ++ new)[a]? = some nd := by
  obtain ⟨hlt, _⟩ := List.getElem?_eq_some.1 h
  rw [getElem?_append_old m new a hlt, h]

theorem represents_append (m new : Mem) (p : Ptr) (t : T_tree)
    (h : represents m p t = true) : represents (m ++ new) p t = true := by
  induction t generalizing p with
  | NULL =>
    cases p with
    | none => rfl
    | some a => simp [represents] at h
  | Tree l k r ihl ihr =>
    cases p with
    | none => simp [represents] at h
    | some a =>
      obtain ⟨nd, l', r', hnd, ht, hl, hr⟩ := (represents_some m a _).1 h
      obtain ⟨el, ek, er⟩ := T_tree.Tree.inj ht
      subst el er
      exact (represents_some _ a _).2
        ⟨nd, l, r, getElem?_append_of_some m new a nd hnd, ht, ihl _ hl, ihr _ hr⟩

theorem represents_TreeM (m : Mem) (pl pr : Ptr) (k : string) (l r : T_tree)
    (hl : represents m pl l = true) (hr : represents m pr r = true) :
    represents (TreeM pl k pr m).2 (TreeM pl k pr m).1 (.Tree l k r) = true := by
  refine (represents_some _ _ _).2 ⟨⟨pl, k, pr⟩, l, r, ?_, rfl, ?_, ?_⟩
  · exact List.getElem?_concat_length m _
  · exact represents_append m _ pl l hl
  · exact represents_append m _ pr r hr

theorem insertM_spec (key : string) (t : T_tree) :
    ∀ (p : Ptr) (m : Mem) (depth : Nat), represents m p t = true → height t < depth →
      ∃ (a2 : Nat) (new : List Node),
        insertM key depth p m = some (some a2, m ++ new) ∧
          new.length ≤ height t + 1 ∧
          represents (m ++ new) (some a2) (insert key t) = true := by
  induction t with
  | NULL =>
    intro p m depth hp hd
    cases p with
    | some a => simp [represents] at hp
    | none =>
      obtain ⟨d, rfl⟩ : ∃ d, depth = d + 1 := ⟨depth - 1, by omega⟩
      refine ⟨m.length, [⟨none, key, none⟩], rfl, by simp [height], ?_⟩
      exact represents_TreeM m none none key .NULL .NULL rfl rfl
  | Tree l k r ihl ihr =>
    intro p m depth hp hd
    cases p with
    | none => simp [represents] at hp
    | some a =>
      obtain ⟨nd, l', r', hnd, ht, hl, hr⟩ := (represents_some m a _).1 hp
      obtain ⟨el, ek, er⟩ := T_tree.Tree.inj ht
      subst el er
      obtain ⟨d, rfl⟩ : ∃ d, depth = d + 1 := ⟨depth - 1, by omega⟩
      have hhl : height l < d := by simp only [height] at hd; omega
      have hhr : height r < d := by simp only [height] at hd; omega
      rcases lt_trichotomy (strcmp key k) 0 with h | h | h
      · obtain ⟨a1, new1, e1, hn1, hr1⟩ := ihl nd.left m d hl hhl
        have hk : strcmp key nd.key < 0 := ek ▸ h
        refine ⟨(m ++ new1).length, new1 ++ [⟨some a1, nd.key, nd.right⟩], ?_, ?_, ?_⟩
        · simp [insertM, hnd, hk, e1, TreeM]
        · simp only [height, List.length_append, List.length_singleton]; omega
        · rw [insert_lt key k l r h, ek, ← List.append_assoc]
          exact represents_TreeM (m ++ new1) (some a1) nd.right nd.key _ _ hr1
            (represents_append m new1 _ _ hr)
      · have hk : strcmp key nd.key = 0 := ek ▸ h
        refine ⟨m.length, [⟨nd.left, key, nd.right⟩], ?_, by simp [height], ?_⟩
        · simp [insertM, hnd, hk, TreeM]
        · rw [insert_eq key k l r h]
          exact represents_TreeM m nd.left nd.right key _ _ hl hr
      · obtain ⟨a1, new1, e1, hn1, hr1⟩ := ihr nd.right m d hr hhr
        have hk : strcmp key nd.key > 0 := ek ▸ h
        have hk2 : ¬ strcmp key nd.key < 0 := by omega
        refine ⟨(m ++ new1).length, new1 ++ [⟨nd.left, nd.key, some a1⟩], ?_, ?_, ?_⟩
        · simp [insertM, hnd, hk, hk2, e1, TreeM]
        · simp only [height, List.length_append, List.length_singleton]; omega
        · rw [insert_gt key k l r h, ek, ← List.append_assoc]
          exact represents_TreeM (m ++ new1) nd.left (some a1) nd.key _ _
            (represents_append m new1 _ _ hl) hr1

theorem memberM_spec (key : string) (t : T_tree) :
    ∀ (p : Ptr) (m : Mem) (depth : Nat), represents m p t = true → height t < depth →
      memberM key depth p m = some (member key t) := by
  induction t with
  | NULL =>
    intro p m depth hp hd
    cases p with
    | some a => simp [represents] at hp
    | none =>
      obtain ⟨d, rfl⟩ : ∃ d, depth = d + 1 := ⟨depth - 1, by omega⟩
      rfl
  | Tree l k r ihl ihr =>
    intro p m depth hp hd
    cases p with
    | none => simp [represents] at hp
    | some a =>
      obtain ⟨nd, l', r', hnd, ht, hl, hr⟩ := (represents_some m a _).1 hp
      obtain ⟨el, ek, er⟩ := T_tree.Tree.inj ht
      subst el er
      obtain ⟨d, rfl⟩ : ∃ d, depth = d + 1 := ⟨depth - 1, by omega⟩
      have hhl : height l < d := by simp only [height] at hd; omega
      have hhr : height r < d := by simp only [height] at hd; omega
      have e1 := ihl nd.left m d hl hhl
      have e2 := ihr nd.right m d hr hhr
      by_cases h : strncmp key nd.key MAX_STRING_LEN = 0
      · simp [memberM, member, hnd, h, ek]
      · cases hb : member key l <;>
          simp [memberM, member, hnd, h, ek, e1, e2, hb]

/-! ## The claims -/

/-- C1: for every key `K` and every tree `T` of any shape (ordered or not,
keys of any length), `member(K, insert(K, T))` is true. -/
theorem C1_member_insert (K : string) (T : T_tree) : member K (insert K T) = true :=
  (member_iff_exists K (insert K T)).2
    ⟨K, (mem_inorder_insert K K T).2 (Or.inl rfl), strncmp_self K MAX_STRING_LEN⟩

/-- C2, as stated, fails: `member` compares only the first `MAX_STRING_LEN`
characters, so for the 129-character key "a…ab" and the one-node tree holding
"a…ac" it answers true although no node holds a key equal to the query. -/
theorem C2_counterexample :
    ¬ (member longAB (.Tree .NULL longAC .NULL) = true ↔
        ∃ k ∈ inorder (.Tree .NULL longAC .NULL), strcmp longAB k = 0) := by
  intro h
  have hm : member longAB (.Tree .NULL longAC .NULL) = true := by
    apply (member_iff_exists _ _).2
    refine ⟨longAC, by simp [inorder], ?_⟩
    apply (strncmp_eq_zero_iff _ _ _).2
    simp [longAB, longAC, padded, MAX_STRING_LEN, List.take_append_eq_append_take]
  obtain ⟨k, hk, hk0⟩ := h.1 hm
  have hk2 : k = longAC := by simpa [inorder] using hk
  have he : longAB = longAC := hk2 ▸ (strcmp_eq_zero_iff _ _).1 hk0
  have h3 := List.append_inj_right he rfl
  simp [Subtype.ext_iff] at h3

/-- C2, amended: when the key `K` and every key of the tree `T` have at most
`MAX_STRING_LEN` characters, `member(K, T)` is true if and only if some node
of `T` holds a key equal to `K` as a string (`strcmp == 0`). -/
theorem C2_member_iff_present (K : string) (T : T_tree)
    (hK : K.length ≤ MAX_STRING_LEN)
    (hT : ∀ k ∈ inorder T, k.length ≤ MAX_STRING_LEN) :
    member K T = true ↔ ∃ k ∈ inorder T, strcmp K k = 0 := by
  rw [member_iff_exists]
  constructor
  · rintro ⟨k, hk, h0⟩
    refine ⟨k, hk, (strcmp_eq_zero_iff K k).2 ?_⟩
    exact (take_eq_of_length_le hK (hT k hk)).1 ((strncmp_eq_zero_iff K k _).1 h0)
  · rintro ⟨k, hk, h0⟩
    refine ⟨k, hk, ?_⟩
    rw [(strcmp_eq_zero_iff K k).1 h0]
    exact strncmp_self k _

/-- Witness for C2 (amended): the demo tree and the key "world". -/
theorem C2_member_iff_present_witness :
    world.length ≤ MAX_STRING_LEN ∧ (∀ k ∈ inorder mainTree, k.length ≤ MAX_STRING_LEN) ∧
      (member world mainTree = true ↔ ∃ k ∈ inorder mainTree, strcmp world k = 0) :=
  ⟨by decide, by decide,
    C2_member_iff_present world mainTree (by decide) (by decide)⟩

/-- C3: the tree obtained by inserting any finite sequence of keys one after
another into the empty tree satisfies the search-tree ordering, and its
in-order traversal is in non-decreasing `strcmp` order; more generally
`insert(K, T)` satisfies the ordering whenever `T` does. -/
theorem C3_insert_keeps_ordering :
    (∀ ks : List string,
      ordered (insertAll ks .NULL) = true ∧
        (inorder (insertAll ks .NULL)).Pairwise (fun a b => strcmp a b ≤ 0)) ∧
    (∀ (K : string) (T : T_tree), ordered T = true → ordered (insert K T) = true) := by
  refine ⟨fun ks => ?_, ordered_insert⟩
  have h := ordered_insertAll ks .NULL rfl
  exact ⟨h, (inorder_strictly_increasing _ h).imp (fun {a b} hab => le_of_lt hab)⟩

/-- Witness for C3: inserting "hi" into the ordered one-node tree "hello". -/
theorem C3_insert_keeps_ordering_witness :
    ordered (.Tree .NULL hello .NULL) = true ∧
      ordered (insert hi (.Tree .NULL hello .NULL)) = true :=
  ⟨by decide, C3_insert_keeps_ordering.2 hi (.Tree .NULL hello .NULL) (by decide)⟩

/-- C4: for every key `K` and every tree `T`, `insert(K, insert(K, T))` has
the same in-order key sequence and the same number of nodes as
`insert(K, T)`: the second insertion duplicates nothing. -/
theorem C4_insert_idempotent (K : string) (T : T_tree) :
    inorder (insert K (insert K T)) = inorder (insert K T) ∧
      size (insert K (insert K T)) = size (insert K T) := by
  rw [insert_insert]
  exact ⟨rfl, rfl⟩

/-- C5: for every ordered tree `T` and every key `K` that some node of `T`
already holds, `insert(K, T)` adds no node: it has the shape and the number of
nodes of `T`, its keys are those of `T` with the key that equals `K` replaced
by `K`, and no key occurs twice in its in-order traversal. -/
theorem C5_insert_existing (K : string) (T : T_tree) (hT : ordered T = true)
    (hK : K ∈ inorder T) :
    sameShape (insert K T) T = true ∧ size (insert K T) = size T ∧
      inorder (insert K T) = (inorder T).map (fun k => if strcmp K k = 0 then K else k) ∧
      (inorder (insert K T)).Nodup := by
  rw [insert_present K T hT hK]
  refine ⟨sameShape_self T, rfl, ?_, inorder_nodup T hT⟩
  symm
  conv_rhs => rw [← List.map_id (inorder T)]
  apply List.map_congr_left
  intro k _
  by_cases h : strcmp K k = 0
  · simp [h, (strcmp_eq_zero_iff K k).1 h]
  · simp [h]

/-- Witness for C5: inserting "world" into the ordered tree built from
"hello" and "world". -/
theorem C5_insert_existing_witness :
    ordered (insertAll [hello, world] .NULL) = true ∧
      world ∈ inorder (insertAll [hello, world] .NULL) ∧
      sameShape (insert world (insertAll [hello, world] .NULL))
        (insertAll [hello, world] .NULL) = true ∧
      size (insert world (insertAll [hello, world] .NULL)) =
        size (insertAll [hello, world] .NULL) ∧
      inorder (insert world (insertAll [hello, world] .NULL)) =
        (inorder (insertAll [hello, world] .NULL)).map
          (fun k => if strcmp world k = 0 then world else k) ∧
      (inorder (insert world (insertAll [hello, world] .NULL))).Nodup :=
  ⟨by decide, by decide,
    C5_insert_existing world (insertAll [hello, world] .NULL) (by decide) (by decide)⟩

/-- C6: for a non-empty tree with root `(left, k, right)` stored at address
`a`: if `key` is strictly less than `k`, `insert` returns a root with the
same key, the identical right pointer and as left subtree `insert(key, left)`;
if `key` is strictly greater, a root with the same key, the identical left
pointer and as right subtree `insert(key, right)`. Every node that existed
before is left as it was, and at most `height(T) + 1` nodes are allocated. -/
theorem C6_insert_frame (key k : string) (l r : T_tree) (m : Mem) (a depth : Nat)
    (hT : represents m (some a) (.Tree l k r) = true)
    (hd : height (.Tree l k r) < depth) :
    (strcmp key k < 0 → insert key (.Tree l k r) = .Tree (insert key l) k r) ∧
    (strcmp key k > 0 → insert key (.Tree l k r) = .Tree l k (insert key r)) ∧
    ∃ (old root : Node) (a2 : Nat) (new : List Node),
      m[a]? = some old ∧
      insertM key depth (some a) m = some (some a2, m ++ new) ∧
      (m ++ new)[a2]? = some root ∧
      new.length ≤ height (.Tree l k r) + 1 ∧
      (∀ i, i < m.length → (m ++ new)[i]? = m[i]?) ∧
      represents (m ++ new) (some a2) (insert key (.Tree l k r)) = true ∧
      (strcmp key k < 0 → root.key = old.key ∧ root.right = old.right ∧
        represents (m ++ new) root.left (insert key l) = true) ∧
      (strcmp key k > 0 → root.key = old.key ∧ root.left = old.left ∧
        represents (m ++ new) root.right (insert key r) = true) := by
  refine ⟨insert_lt key k l r, insert_gt key k l r, ?_⟩
  obtain ⟨old, l2, r2, hold, ht, hl, hr⟩ := (represents_some m a _).1 hT
  obtain ⟨el, ek, er⟩ := T_tree.Tree.inj ht
  subst el er
  obtain ⟨d, rfl⟩ : ∃ d, depth = d + 1 := ⟨depth - 1, by omega⟩
  have hhl : height l < d := by simp only [height] at hd; omega
  have hhr : height r < d := by simp only [height] at hd; omega
  obtain ⟨a2, new, e, hn, hrep⟩ := insertM_spec key _ (some a) m (d + 1) hT hd
  have hframe : ∀ i, i < m.length → (m ++ new)[i]? = m[i]? :=
    fun i hi => getElem?_append_old m new i hi
  rcases lt_trichotomy (strcmp key k) 0 with h | h | h
  · obtain ⟨a1, new1, e1, _, hr1⟩ := insertM_spec key l old.left m d hl hhl
    have hk : strcmp key old.key < 0 := ek ▸ h
    have e2 : insertM key (d + 1) (some a) m =
        some (some (m ++ new1).length, m ++ (new1 ++ [⟨some a1, old.key, old.right⟩])) := by
      simp [insertM, hold, hk, e1, TreeM]
    obtain ⟨ea, en⟩ := Prod.mk.inj (Option.some.inj (e.symm.trans e2))
    have en2 := List.append_cancel_left en
    have ea2 : a2 = (m ++ new1).length := Option.some.inj ea
    subst en2 ea2
    refine ⟨old, ⟨some a1, old.key, old.right⟩, _, _, hold, e, ?_, hn, hframe, hrep, ?_, ?_⟩
    · rw [← List.append_assoc]
      exact List.getElem?_concat_length _ _
    · intro _
      refine ⟨rfl, rfl, ?_⟩
      rw [← List.append_assoc]
      exact represents_append _ _ _ _ hr1
    · intro h2
      omega
  · have hk : strcmp key old.key = 0 := ek ▸ h
    have e2 : insertM key (d + 1) (some a) m =
        some (some m.length, m ++ [⟨old.left, key, old.right⟩]) := by
      simp [insertM, hold, hk, TreeM]
    obtain ⟨ea, en⟩ := Prod.mk.inj (Option.some.inj (e.symm.trans e2))
    have en2 := List.append_cancel_left en
    have ea2 : a2 = m.length := Option.some.inj ea
    subst en2 ea2
    refine ⟨old, ⟨old.left, key, old.right⟩, _, _, hold, e, ?_, hn, hframe, hrep, ?_, ?_⟩
    · exact List.getElem?_concat_length _ _
    · intro h2
      omega
    · intro h2
      omega
  · obtain ⟨a1, new1, e1, _, hr1⟩ := insertM_spec key r old.right m d hr hhr
    have hk : strcmp key old.key > 0 := ek ▸ h
    have hk2 : ¬ strcmp key old.key < 0 := by omega
    have e2 : insertM key (d + 1) (some a) m =
        some (some (m ++ new1).length, m ++ (new1 ++ [⟨old.left, old.key, some a1⟩])) := by
      simp [insertM, hold, hk, hk2, e1, TreeM]
    obtain ⟨ea, en⟩ := Prod.mk.inj (Option.some.inj (e.symm.trans e2))
    have en2 := List.append_cancel_left en
    have ea2 : a2 = (m ++ new1).length := Option.some.inj ea
    subst en2 ea2
    refine ⟨old, ⟨old.left, old.key, some a1⟩, _, _, hold, e, ?_, hn, hframe, hrep, ?_, ?_⟩
    · rw [← List.append_assoc]
      exact List.getElem?_concat_length _ _
    · intro h2
      omega
    · intro _
      refine ⟨rfl, rfl, ?_⟩
      rw [← List.append_assoc]
      exact represents_append _ _ _ _ hr1

/-- Witness for C6: inserting "hi" into the demo tree, whose root "hello" is at
address 1 of the demo memory. -/
theorem C6_insert_frame_witness :
    represents mainMem (some 1) (.Tree (.Tree .NULL world .NULL) hello .NULL) = true ∧
    height (.Tree (.Tree .NULL world .NULL) hello .NULL) < 3 ∧
    ((strcmp hi hello < 0 →
        insert hi (.Tree (.Tree .NULL world .NULL) hello .NULL) =
          .Tree (insert hi (.Tree .NULL world .NULL)) hello .NULL) ∧
      (strcmp hi hello > 0 →
        insert hi (.Tree (.Tree .NULL world .NULL) hello .NULL) =
          .Tree (.Tree .NULL world .NULL) hello (insert hi .NULL)) ∧
      ∃ (old root : Node) (a2 : Nat) (new : List Node),
        mainMem[1]? = some old ∧
        insertM hi 3 (some 1) mainMem = some (some a2, mainMem ++ new) ∧
        (mainMem ++ new)[a2]? = some root ∧
        new.length ≤ height (.Tree (.Tree .NULL world .NULL) hello .NULL) + 1 ∧
        (∀ i, i < mainMem.length → (mainMem ++ new)[i]? = mainMem[i]?) ∧
        represents (mainMem ++ new) (some a2)
          (insert hi (.Tree (.Tree .NULL world .NULL) hello .NULL)) = true ∧
        (strcmp hi hello < 0 → root.key = old.key ∧ root.right = old.right ∧
          represents (mainMem ++ new) root.left (insert hi (.Tree .NULL world .NULL)) = true) ∧
        (strcmp hi hello > 0 → root.key = old.key ∧ root.left = old.left ∧
          represents (mainMem ++ new) root.right (insert hi .NULL) = true)) :=
  ⟨by decide, by decide,
    C6_insert_frame hi hello (.Tree .NULL world .NULL) .NULL mainMem 1 3
      (by decide) (by decide)⟩

/-- C7: persistence. When `p` is the root of the tree `T` in memory `m`,
`insert(K, p)` returns, and in the memory it leaves every node that existed
before has the left, key and right fields it had; `p` is still the root of
`T`, and `member(K2, p)` answers for every key `K2` what it answered before. -/
theorem C7_persistence (K : string) (m : Mem) (p : Ptr) (T : T_tree) (depth : Nat)
    (hT : represents m p T = true) (hd : height T < depth) :
    ∃ (p2 : Ptr) (m2 : Mem),
      insertM K depth p m = some (p2, m2) ∧
      (∀ i, i < m.length → m2[i]? = m[i]?) ∧
      represents m2 p T = true ∧
      (∀ (K2 : string) (d : Nat), height T < d →
        memberM K2 d p m2 = memberM K2 d p m ∧
          memberM K2 d p m = some (member K2 T)) := by
  obtain ⟨a2, new, e, _, _⟩ := insertM_spec K T p m depth hT hd
  have hT2 : represents (m ++ new) p T = true := represents_append m new p T hT
  refine ⟨some a2, m ++ new, e, fun i hi => getElem?_append_old m new i hi, hT2, ?_⟩
  intro K2 d hd2
  rw [memberM_spec K2 T p (m ++ new) d hT2 hd2, memberM_spec K2 T p m d hT hd2]
  exact ⟨rfl, rfl⟩

/-- Witness for C7: inserting "hi" into the demo tree in the demo memory. -/
theorem C7_persistence_witness :
    represents mainMem mainPtr mainTree = true ∧ height mainTree < 3 ∧
    ∃ (p2 : Ptr) (m2 : Mem),
      insertM hi 3 mainPtr mainMem = some (p2, m2) ∧
      (∀ i, i < mainMem.length → m2[i]? = mainMem[i]?) ∧
      represents m2 mainPtr mainTree = true ∧
      (∀ (K2 : string) (d : Nat), height mainTree < d →
        memberM K2 d mainPtr m2 = memberM K2 d mainPtr mainMem ∧
          memberM K2 d mainPtr mainMem = some (member K2 mainTree)) :=
  ⟨by decide, by decide,
    C7_persistence hi mainMem mainPtr mainTree 3 (by decide) (by decide)⟩

/-- C8: for every key `K`, `insert(K, NULL)` is a single node holding `K`
with two empty subtrees. -/
theorem C8_insert_empty (K : string) : insert K .NULL = .Tree .NULL K .NULL := rfl

/-- C9: for the demo tree `Tree(Tree(NULL, "world", NULL), "hello", NULL)`,
`member("hi", tree)` is false and `member("world", tree)` is true, the demo
prints `member(hi) = 0` and `member(world) = 1`, and "world" sits in the left
subtree of "hello" although it compares greater than "hello". -/
theorem C9_demo :
    member hi mainTree = false ∧ member world mainTree = true ∧
      mainStdout = "member(hi) = 0\nmember(world) = 1\n".toList ∧
      mainTree = .Tree (.Tree .NULL world .NULL) hello .NULL ∧
      strcmp world hello > 0 := by
  decide

/-- C10 fails on the code: for the 129-character input "a…a", `String` stores
129 characters (`strnlen(str, MAX_STRING_LEN + 1)` is 129), one more than
`MAX_STRING_LEN`, not the first 128. -/
theorem C10_String_copies_129 :
    (Util.String long129).length = 129 ∧ MAX_STRING_LEN = 128 ∧
      Util.String long129 ≠ (long129.take MAX_STRING_LEN).map (fun c => c.val) := by
  have h : (Util.String long129).length = 129 := by
    rw [String_eq]
    simp [long129, padded, MAX_STRING_LEN]
  refine ⟨h, rfl, fun e => ?_⟩
  have h2 := congrArg List.length e
  rw [h] at h2
  simp [long129, padded, MAX_STRING_LEN] at h2

/-! ## Helper lemmas on reachable trees, spines and the search path -/

theorem builtInOrder_ordered (t : T_tree) (h : BuiltInOrder t) : ordered t = true := by
  induction h with
  | byNull => rfl
  | byTree l k r _ _ hl hr ihl ihr => exact (ordered_node l r k).2 ⟨hl, hr, ihl, ihr⟩
  | byInsert k t _ ih => exact ordered_insert k t ih

theorem insertAll_cons (k : string) (ks : List string) (t : T_tree) :
    insertAll (k :: ks) t = insertAll ks (insert k t) := rfl

theorem rightSpine_insert (k : string) (t : T_tree) (hs : rightSpine t = true)
    (hlt : ∀ x ∈ inorder t, strcmp x k < 0) :
    rightSpine (insert k t) = true ∧ inorder (insert k t) = inorder t ++ [k] ∧
      height (insert k t) = height t + 1 := by
  induction t with
  | NULL => simp [insert, rightSpine, inorder, height]
  | Tree l x r _ ihr =>
    simp only [rightSpine, Bool.and_eq_true, decide_eq_true_eq] at hs
    obtain ⟨hl, hr⟩ := hs
    subst hl
    have hx : strcmp k x > 0 := (strcmp_pos_iff k x).2 (hlt x (by simp [inorder]))
    obtain ⟨h1, h2, h3⟩ := ihr hr (fun y hy => hlt y (by simp [inorder, hy]))
    rw [insert_gt k x .NULL r hx]
    refine ⟨by simp [rightSpine, h1], by simp [inorder, h2], ?_⟩
    simp only [height, h3]
    omega

theorem leftSpine_insert (k : string) (t : T_tree) (hs : leftSpine t = true)
    (hgt : ∀ x ∈ inorder t, strcmp x k > 0) :
    leftSpine (insert k t) = true ∧ inorder (insert k t) = k :: inorder t ∧
      height (insert k t) = height t + 1 := by
  induction t with
  | NULL => simp [insert, leftSpine, inorder, height]
  | Tree l x r ihl _ =>
    simp only [leftSpine, Bool.and_eq_true, decide_eq_true_eq] at hs
    obtain ⟨hr, hl⟩ := hs
    subst hr
    have hx : strcmp k x < 0 := (strcmp_pos_iff x k).1 (hgt x (by simp [inorder]))
    obtain ⟨h1, h2, h3⟩ := ihl hl (fun y hy => hgt y (by simp [inorder, hy]))
    rw [insert_lt k x l .NULL hx]
    refine ⟨by simp [leftSpine, h1], by simp [inorder, h2], ?_⟩
    simp only [height, h3]
    omega

theorem rightSpine_insertAll (ks : List string) :
    ∀ t : T_tree, rightSpine t = true →
      ks.Pairwise (fun a b => strcmp a b < 0) →
      (∀ x ∈ inorder t, ∀ k ∈ ks, strcmp x k < 0) →
      rightSpine (insertAll ks t) = true ∧ height (insertAll ks t) = height t + ks.length := by
  induction ks with
  | nil => intro t hs _ _; exact ⟨hs, rfl⟩
  | cons k ks ih =>
    intro t hs hp hlt
    obtain ⟨hk, hp2⟩ := List.pairwise_cons.1 hp
    obtain ⟨h1, h2, h3⟩ := rightSpine_insert k t hs (fun x hx => hlt x hx k (by simp))
    have h4 : ∀ x ∈ inorder (insert k t), ∀ k2 ∈ ks, strcmp x k2 < 0 := by
      intro x hx k2 hk2
      rw [h2] at hx
      rcases List.mem_append.1 hx with e | e
      · exact hlt x e k2 (by simp [hk2])
      · have : x = k := by simpa using e
        exact this ▸ hk k2 hk2
    obtain ⟨h5, h6⟩ := ih (insert k t) h1 hp2 h4
    rw [insertAll_cons]
    refine ⟨h5, ?_⟩
    rw [h6, h3, List.length_cons]
    omega

theorem leftSpine_insertAll (ks : List string) :
    ∀ t : T_tree, leftSpine t = true →
      ks.Pairwise (fun a b => strcmp a b > 0) →
      (∀ x ∈ inorder t, ∀ k ∈ ks, strcmp x k > 0) →
      leftSpine (insertAll ks t) = true ∧ height (insertAll ks t) = height t + ks.length := by
  induction ks with
  | nil => intro t hs _ _; exact ⟨hs, rfl⟩
  | cons k ks ih =>
    intro t hs hp hgt
    obtain ⟨hk, hp2⟩ := List.pairwise_cons.1 hp
    obtain ⟨h1, h2, h3⟩ := leftSpine_insert k t hs (fun x hx => hgt x hx k (by simp))
    have h4 : ∀ x ∈ inorder (insert k t), ∀ k2 ∈ ks, strcmp x k2 > 0 := by
      intro x hx k2 hk2
      rw [h2] at hx
      rcases List.mem_cons.1 hx with e | e
      · exact e ▸ hk k2 hk2
      · exact hgt x e k2 (by simp [hk2])
    obtain ⟨h5, h6⟩ := ih (insert k t) h1 hp2 h4
    rw [insertAll_cons]
    refine ⟨h5, ?_⟩
    rw [h6, h3, List.length_cons]
    omega

theorem strcmp_gt_trans (a b c : string) (h1 : strcmp a b > 0) (h2 : strcmp b c > 0) :
    strcmp a c > 0 :=
  (strcmp_pos_iff a c).2
    (strcmp_trans c b a ((strcmp_pos_iff b c).1 h2) ((strcmp_pos_iff a b).1 h1))

theorem increasing_pairwise (ks : List string) (h : increasing ks = true) :
    ks.Pairwise (fun a b => strcmp a b < 0) := by
  induction ks with
  | nil => exact List.Pairwise.nil
  | cons a ks ih =>
    cases ks with
    | nil => simp
    | cons b rest =>
      simp only [increasing, Bool.and_eq_true, decide_eq_true_eq] at h
      have hp := ih h.2
      refine List.pairwise_cons.2 ⟨?_, hp⟩
      intro x hx
      rcases List.mem_cons.1 hx with e | e
      · exact e ▸ h.1
      · exact strcmp_trans a b x h.1 ((List.pairwise_cons.1 hp).1 x e)

theorem decreasing_pairwise (ks : List string) (h : decreasing ks = true) :
    ks.Pairwise (fun a b => strcmp a b > 0) := by
  induction ks with
  | nil => exact List.Pairwise.nil
  | cons a ks ih =>
    cases ks with
    | nil => simp
    | cons b rest =>
      simp only [decreasing, Bool.and_eq_true, decide_eq_true_eq] at h
      have hp := ih h.2
      refine List.pairwise_cons.2 ⟨?_, hp⟩
      intro x hx
      rcases List.mem_cons.1 hx with e | e
      · exact e ▸ h.1
      · exact strcmp_gt_trans a b x h.1 ((List.pairwise_cons.1 hp).1 x e)

theorem orderedLookup_iff (K : string) (t : T_tree) (h : ordered t = true) :
    orderedLookup K t = true ↔ K ∈ inorder t := by
  induction t with
  | NULL => simp [orderedLookup, inorder]
  | Tree l k r ihl ihr =>
    obtain ⟨hl, hr, ol, or⟩ := (ordered_node l r k).1 h
    simp only [inorder, List.mem_append, List.mem_cons]
    rcases lt_trichotomy (strcmp K k) 0 with h1 | h1 | h1
    · have e : orderedLookup K (.Tree l k r) = orderedLookup K l := by
        simp [orderedLookup, h1]
      rw [e, ihl ol]
      constructor
      · exact Or.inl
      · rintro (e | e | e)
        · exact e
        · rw [e, strcmp_self] at h1
          omega
        · have := hr K e
          omega
    · have e : orderedLookup K (.Tree l k r) = true := by
        simp [orderedLookup, h1]
      rw [e]
      exact ⟨fun _ => Or.inr (Or.inl ((strcmp_eq_zero_iff K k).1 h1)), fun _ => rfl⟩
    · have h2 : ¬ strcmp K k < 0 := by omega
      have e : orderedLookup K (.Tree l k r) = orderedLookup K r := by
        simp [orderedLookup, h1, h2]
      rw [e, ihr or]
      constructor
      · exact fun e => Or.inr (Or.inr e)
      · rintro (e | e | e)
        · have := hl K e
          omega
        · rw [e, strcmp_self] at h1
          omega
        · exact e

theorem size_insert_of_miss (K : string) (t : T_tree)
    (h : ∀ k ∈ searchPath K t, strcmp K k ≠ 0) : size (insert K t) = size t + 1 := by
  induction t with
  | NULL => simp [insert, size]
  | Tree l k r ihl ihr =>
    rcases lt_trichotomy (strcmp K k) 0 with h1 | h1 | h1
    · have e : searchPath K (.Tree l k r) = k :: searchPath K l := by
        simp [searchPath, h1]
      rw [e] at h
      rw [insert_lt K k l r h1]
      simp only [size, ihl (fun x hx => h x (List.mem_cons_of_mem _ hx))]
      omega
    · have e : searchPath K (.Tree l k r) = [k] := by
        simp [searchPath, h1]
      rw [e] at h
      exact absurd h1 (h k (by simp))
    · have h2 : ¬ strcmp K k < 0 := by omega
      have e : searchPath K (.Tree l k r) = k :: searchPath K r := by
        simp [searchPath, h1, h2]
      rw [e] at h
      rw [insert_gt K k l r h1]
      simp only [size, ihr (fun x hx => h x (List.mem_cons_of_mem _ hx))]
      omega

theorem size_insert_of_hit (K : string) (t : T_tree)
    (h : ∃ k ∈ searchPath K t, strcmp K k = 0) : size (insert K t) = size t := by
  induction t with
  | NULL => simp [searchPath] at h
  | Tree l k r ihl ihr =>
    obtain ⟨x, hx, hx0⟩ := h
    rcases lt_trichotomy (strcmp K k) 0 with h1 | h1 | h1
    · have e : searchPath K (.Tree l k r) = k :: searchPath K l := by
        simp [searchPath, h1]
      rw [e] at hx
      rw [insert_lt K k l r h1]
      rcases List.mem_cons.1 hx with e2 | e2
      · rw [e2] at hx0
        omega
      · simp only [size, ihl ⟨x, e2, hx0⟩]
    · rw [insert_eq K k l r h1]
      simp only [size]
    · have h2 : ¬ strcmp K k < 0 := by omega
      have e : searchPath K (.Tree l k r) = k :: searchPath K r := by
        simp [searchPath, h1, h2]
      rw [e] at hx
      rw [insert_gt K k l r h1]
      rcases List.mem_cons.1 hx with e2 | e2
      · rw [e2] at hx0
        omega
      · simp only [size, ihr ⟨x, e2, hx0⟩]

theorem height_insert_bounds (K : string) (t : T_tree) :
    height t ≤ height (insert K t) ∧ height (insert K t) ≤ height t + 1 := by
  induction t with
  | NULL => simp [insert, height]
  | Tree l k r ihl ihr =>
    rcases lt_trichotomy (strcmp K k) 0 with h1 | h1 | h1
    · rw [insert_lt K k l r h1]
      simp only [height]
      omega
    · rw [insert_eq K k l r h1]
      simp only [height]
      omega
    · rw [insert_gt K k l r h1]
      simp only [height]
      omega

/-! ## The claims on reachable trees, exhaustive search and growth -/

/-- C11, as stated, fails: the tree that `main` builds with `Tree` alone,
"world" to the left of "hello", is a tree the public operations produce and
does not satisfy the search-tree ordering. -/
theorem C11_counterexample : Built mainTree ∧ ordered mainTree = false :=
  ⟨Built.byTree _ _ _ (Built.byTree _ _ _ Built.byNull Built.byNull) Built.byNull,
    by decide⟩

/-- C11, amended: every tree built with `insert`, and with `Tree` only when
its key is greater than every key of its left argument and less than every key
of its right argument, satisfies the search-tree ordering at every node. -/
theorem C11_built_in_order (T : T_tree) (h : BuiltInOrder T) : ordered T = true :=
  builtInOrder_ordered T h

/-- Witness for C11 (amended): "hi" inserted into the one-node tree "hello". -/
theorem C11_built_in_order_witness :
    BuiltInOrder (insert hi (.Tree .NULL hello .NULL)) ∧
      ordered (insert hi (.Tree .NULL hello .NULL)) = true :=
  ⟨BuiltInOrder.byInsert hi _
      (BuiltInOrder.byTree .NULL hello .NULL BuiltInOrder.byNull BuiltInOrder.byNull
        (by decide) (by decide)),
    C11_built_in_order (insert hi (.Tree .NULL hello .NULL))
      (BuiltInOrder.byInsert hi _
        (BuiltInOrder.byTree .NULL hello .NULL BuiltInOrder.byNull BuiltInOrder.byNull
          (by decide) (by decide)))⟩

/-- C12: `member` does not prune. For every key `K` and every tree `T` of any
shape, `member(K, T)` is true exactly when some node of `T`, wherever it is,
holds a key `k` with `strncmp(K, k, MAX_STRING_LEN) == 0`, that is, a key that
agrees with `K` on the first 128 characters. -/
theorem C12_member_exhaustive (K : string) (T : T_tree) :
    (member K T = true ↔ ∃ k ∈ inorder T, strncmp K k MAX_STRING_LEN = 0) ∧
    (member K T = true ↔ ∃ k ∈ inorder T, K.take 128 = k.take 128) ∧
    MAX_STRING_LEN = 128 := by
  refine ⟨member_iff_exists K T, ?_, rfl⟩
  rw [member_iff_exists]
  constructor
  · rintro ⟨k, hk, h⟩
    exact ⟨k, hk, (strncmp_eq_zero_iff K k MAX_STRING_LEN).1 h⟩
  · rintro ⟨k, hk, h⟩
    exact ⟨k, hk, (strncmp_eq_zero_iff K k MAX_STRING_LEN).2 h⟩

/-- C13: inserting a strictly increasing sequence of `n` keys into the empty
tree gives a tree of height `n` in which every node has an empty left subtree;
a strictly decreasing sequence gives a tree of height `n` in which every node
has an empty right subtree. -/
theorem C13_sorted_insertion_spine (ks : List string) :
    (increasing ks = true →
      height (insertAll ks .NULL) = ks.length ∧ rightSpine (insertAll ks .NULL) = true) ∧
    (decreasing ks = true →
      height (insertAll ks .NULL) = ks.length ∧ leftSpine (insertAll ks .NULL) = true) := by
  constructor
  · intro h
    obtain ⟨h1, h2⟩ := rightSpine_insertAll ks .NULL rfl (increasing_pairwise ks h)
      (fun x hx => by simp [inorder] at hx)
    exact ⟨by simpa [height] using h2, h1⟩
  · intro h
    obtain ⟨h1, h2⟩ := leftSpine_insertAll ks .NULL rfl (decreasing_pairwise ks h)
      (fun x hx => by simp [inorder] at hx)
    exact ⟨by simpa [height] using h2, h1⟩

/-- Witness for C13: "hello" < "hi" < "world" inserted in increasing order,
and the same keys in decreasing order. -/
theorem C13_sorted_insertion_spine_witness :
    (increasing [hello, hi, world] = true ∧
      height (insertAll [hello, hi, world] .NULL) = [hello, hi, world].length ∧
      rightSpine (insertAll [hello, hi, world] .NULL) = true) ∧
    (decreasing [world, hi, hello] = true ∧
      height (insertAll [world, hi, hello] .NULL) = [world, hi, hello].length ∧
      leftSpine (insertAll [world, hi, hello] .NULL) = true) :=
  ⟨⟨by decide, (C13_sorted_insertion_spine [hello, hi, world]).1 (by decide)⟩,
    ⟨by decide, (C13_sorted_insertion_spine [world, hi, hello]).2 (by decide)⟩⟩

/-- C14: for every key `K` and every tree `T` of any shape, the keys stored in
`insert(K, T)` are exactly the keys stored in `T` together with `K`; hence for
every key `K2` that differs from `K` within the first 128 characters,
`member(K2, insert(K, T)) = member(K2, T)`. -/
theorem C14_insert_keys (K K2 : string) (T : T_tree) :
    (∀ x, x ∈ inorder (insert K T) ↔ x = K ∨ x ∈ inorder T) ∧
    (strncmp K2 K MAX_STRING_LEN ≠ 0 → member K2 (insert K T) = member K2 T) := by
  refine ⟨fun x => mem_inorder_insert K x T, fun hne => ?_⟩
  rw [Bool.eq_iff_iff, member_iff_exists, member_iff_exists]
  constructor
  · rintro ⟨k, hk, h0⟩
    rcases (mem_inorder_insert K k T).1 hk with e | e
    · exact absurd (e ▸ h0) hne
    · exact ⟨k, e, h0⟩
  · rintro ⟨k, hk, h0⟩
    exact ⟨k, (mem_inorder_insert K k T).2 (Or.inr hk), h0⟩

/-- Witness for C14: inserting "hi" into the demo tree, queried with "world". -/
theorem C14_insert_keys_witness :
    strncmp world hi MAX_STRING_LEN ≠ 0 ∧
      member world (insert hi mainTree) = member world mainTree :=
  ⟨by decide, (C14_insert_keys hi world mainTree).2 (by decide)⟩

/-- C15: on a tree `T` that satisfies the search-tree ordering and whose keys
all have at most 128 characters, for a key `K` of at most 128 characters,
`member(K, T)` equals the result of the pruning search `orderedLookup`. -/
theorem C15_member_eq_orderedLookup (K : string) (T : T_tree)
    (hT : ordered T = true) (hlen : ∀ k ∈ inorder T, k.length ≤ 128)
    (hK : K.length ≤ 128) : member K T = orderedLookup K T := by
  rw [Bool.eq_iff_iff, orderedLookup_iff K T hT, member_iff_exists]
  constructor
  · rintro ⟨k, hk, h0⟩
    have e : K = k :=
      (take_eq_of_length_le hK (hlen k hk)).1 ((strncmp_eq_zero_iff K k _).1 h0)
    exact e ▸ hk
  · intro hk
    exact ⟨K, hk, strncmp_self K _⟩

/-- Witness for C15: the tree built by inserting "hello" then "world", queried
with "world". -/
theorem C15_member_eq_orderedLookup_witness :
    ordered (insertAll [hello, world] .NULL) = true ∧
      (∀ k ∈ inorder (insertAll [hello, world] .NULL), k.length ≤ 128) ∧
      world.length ≤ 128 ∧
      member world (insertAll [hello, world] .NULL) =
        orderedLookup world (insertAll [hello, world] .NULL) :=
  ⟨by decide, by decide, by decide,
    C15_member_eq_orderedLookup world (insertAll [hello, world] .NULL)
      (by decide) (by decide) (by decide)⟩

/-- C16: `insert` grows the tree by at most one node and one level:
`size(insert(K, T))` is `size(T) + 1` when no node on the search path of `K`
has a key equal to `K` and `size(T)` otherwise, and
`height(T) <= height(insert(K, T)) <= height(T) + 1`. -/
theorem C16_insert_growth (K : string) (T : T_tree) :
    ((∀ k ∈ searchPath K T, strcmp K k ≠ 0) → size (insert K T) = size T + 1) ∧
    ((∃ k ∈ searchPath K T, strcmp K k = 0) → size (insert K T) = size T) ∧
    height T ≤ height (insert K T) ∧ height (insert K T) ≤ height T + 1 :=
  ⟨size_insert_of_miss K T, size_insert_of_hit K T, height_insert_bounds K T⟩

/-- Witness for C16: "hi" is not on its search path in the demo tree, "hello"
is on its own. -/
theorem C16_insert_growth_witness :
    (∀ k ∈ searchPath hi mainTree, strcmp hi k ≠ 0) ∧
      size (insert hi mainTree) = size mainTree + 1 ∧
      (∃ k ∈ searchPath hello mainTree, strcmp hello k = 0) ∧
      size (insert hello mainTree) = size mainTree :=
  ⟨by decide, (C16_insert_growth hi mainTree).1 (by decide), by decide,
    (C16_insert_growth hello mainTree).2.1 (by decide)⟩

end Chapter1
